import Mathlib

/-!
Verification of the cupcake-operator DirectUpdate reconciliation engine.

The definitions below are a shallow embedding of the Python sources:
`src/lib/version.py`, `src/lib/state.py`, `src/lib/backup.py`,
`src/handlers/direct_update.py`.  Machine integers are modelled as
`Int`/`Nat` (Python integers are unbounded), dictionaries as association
lists, and the Kubernetes API side effects as explicit action traces.
-/

namespace Cupcake

/-- Node-level phase, the values stored in `status.nodes[*].phase`
(`Pending`, `Draining`, `Upgrading`, `Verifying`, `Uncordoning`,
`Completed`, `Failed`). -/
inductive NodePhase where
  | Pending
  | Draining
  | Upgrading
  | Verifying
  | Uncordoning
  | Completed
  | Failed
deriving DecidableEq, Repr

/-- Operation-level phase stored in `status.phase`. -/
inductive OpPhase where
  | Pending
  | InProgress
  | RequiresAttention
  | Succeeded
  | Failed
  | Cancelled
deriving DecidableEq, Repr

/-- The in-flight phase class `['Draining', 'Upgrading', 'Verifying',
'Uncordoning']` used at direct_update.py lines 321, 334, 405. -/
def isInFlight : NodePhase → Bool
  | .Draining => true
  | .Upgrading => true
  | .Verifying => true
  | .Uncordoning => true
  | _ => false

/-- The terminal node class `['Completed', 'Failed']` used at
direct_update.py line 253. -/
def isTerminalNode : NodePhase → Bool
  | .Completed => true
  | .Failed => true
  | _ => false

def isCompletedP : NodePhase → Bool
  | .Completed => true
  | _ => false

def isPendingP : NodePhase → Bool
  | .Pending => true
  | _ => false

def isFailedP : NodePhase → Bool
  | .Failed => true
  | _ => false

/-! ## Version (src/lib/version.py) -/

/-- `Version`: `(major, minor, patch)`; Python integers are unbounded,
hence `Int`. -/
structure Version where
  major : Int
  minor : Int
  patch : Int
deriving DecidableEq, Repr

/-- `Version.__lt__`: lexicographic tuple order on
`(major, minor, patch)`. -/
def vlt (a b : Version) : Bool :=
  decide (a.major < b.major ∨
    (a.major = b.major ∧ (a.minor < b.minor ∨
      (a.minor = b.minor ∧ a.patch < b.patch))))

/-- `Version.__ge__` is `not (self < other)`. -/
def vge (a b : Version) : Bool := ! vlt a b

/-- Python `range(a, b)` over integers, as the list `[a, a+1, ..., b-1]`
(empty when `b ≤ a`). -/
def intRange (a b : Int) : List Int :=
  (List.range (b - a).toNat).map (fun (i : Nat) => a + (i : Int))

/-- `calculate_upgrade_path` (version.py lines 80-129): empty when
`current >= target`; `[target]` when the minors are equal or differ by
exactly one; otherwise one entry per minor in
`range(current.minor + 1, target.minor + 1)`, each `(major, k, 0)`
except that the entry for `target.minor` is `target` itself. -/
def calculate_upgrade_path (current target : Version) : List Version :=
  if vge current target then []
  else if current.minor = target.minor then [target]
  else if target.minor - current.minor = 1 then [target]
  else
    (intRange (current.minor + 1) (target.minor + 1)).map
      (fun m => if m = target.minor then target
                else { major := current.major, minor := m, patch := 0 })

/-- `validate_version_string` restrictions at the `Version` level
(version.py lines 132-153): major must be 1 and minor within
`[20, 31]`. -/
def validate_version (v : Version) : Bool :=
  decide (v.major = 1 ∧ 20 ≤ v.minor ∧ v.minor ≤ 31)

/-! ## Summary (src/lib/state.py `compute_summary`,
direct_update.py `update_summary`) -/

structure Summary where
  total : Nat
  completed : Nat
  upgrading : Nat
  pending : Nat
  failed : Nat
deriving DecidableEq, Repr

/-- `compute_summary` (state.py lines 93-111); `update_summary`
(direct_update.py lines 399-413) computes the same counts.  The nodes
map is an association list node-name ↦ phase. -/
def compute_summary (nodes : List (String × NodePhase)) : Summary :=
  if nodes.isEmpty then
    { total := 0, completed := 0, upgrading := 0, pending := 0, failed := 0 }
  else
    { total := nodes.length
      completed := nodes.countP (fun e => isCompletedP e.2)
      upgrading := nodes.countP (fun e => isInFlight e.2)
      pending := nodes.countP (fun e => isPendingP e.2)
      failed := nodes.countP (fun e => isFailedP e.2) }

/-- The upgrade path as the claim describes it, written from the claim's
words for comparison with `calculate_upgrade_path`: empty when
`current ≥ target`; `[target]` when minors are equal; when
`current.minor < target.minor`, one `(major, k, 0)` entry per
intermediate minor `k` strictly between the minors, then `target`;
and (the amendment) empty when `current < target` but
`target.minor ≤ current.minor` (possible only across majors). -/
def claim_path (current target : Version) : List Version :=
  if ¬ vlt current target then []
  else if current.minor = target.minor then [target]
  else if current.minor < target.minor then
    (intRange (current.minor + 1) target.minor).map
      (fun k => { major := current.major, minor := k, patch := 0 }) ++ [target]
  else []

/-! ## Controller scheduling (src/handlers/direct_update.py) -/

/-- The `status.nodes` map, node-name ↦ phase (the phase is the only
NodeStatus field the scheduler reads). -/
abbrev NodesMap := List (String × NodePhase)

/-- `nodes_status.get(node, {}).get('phase')`: the phase recorded for a
node, `none` when the node has no entry. -/
def lookupPhase (nodes : NodesMap) (n : String) : Option NodePhase :=
  match nodes with
  | [] => none
  | (m, p) :: rest => if m = n then some p else lookupPhase rest n

/-- `nodes_status.get(node_name, {}).get('phase', 'Pending')`
(direct_update.py lines 287 and 342): missing entries default to
`Pending`. -/
def getPhase (nodes : NodesMap) (n : String) : NodePhase :=
  (lookupPhase nodes n).getD .Pending

/-- Writing one node's phase into the nodes map (the effect of an
`update_node_status` patch on `status.nodes`). -/
def setPhase (nodes : NodesMap) (n : String) (p : NodePhase) : NodesMap :=
  match nodes with
  | [] => [(n, p)]
  | (m, q) :: rest =>
      if m = n then (n, p) :: rest else (m, q) :: setPhase rest n p

def optInFlight : Option NodePhase → Bool
  | some p => isInFlight p
  | none => false

def optTerminal : Option NodePhase → Bool
  | some p => isTerminalNode p
  | none => false

def optCompleted : Option NodePhase → Bool
  | some p => isCompletedP p
  | none => false

/-- Count of in-flight workers (direct_update.py lines 331-335):
`sum(1 for node in plan['worker_nodes'] if
nodes_status.get(node, {}).get('phase') in [...])`. -/
def inflightCount (ws : List String) (nodes : NodesMap) : Nat :=
  ws.countP (fun n => optInFlight (lookupPhase nodes n))

/-- One observable controller effect during an InProgress tick:
triggering the etcd-backup ConfigMap, patching `backupInfo`, patching
the operation phase, annotating a node for the agent, patching one
node's phase, or patching the summary. -/
inductive Action where
  | triggerBackup (node : String)
  | patchBackupInfo (node : String)
  | patchOpPhase (p : OpPhase)
  | annotate (node : String)
  | patchNodePhase (node : String) (p : NodePhase)
  | patchSummary
deriving DecidableEq, Repr

/-- Effect of an action on the `status.nodes` map (only the per-node
phase patches touch it). -/
def applyAction (nodes : NodesMap) : Action → NodesMap
  | .patchNodePhase n p => setPhase nodes n p
  | _ => nodes

def applyActions (nodes : NodesMap) (acts : List Action) : NodesMap :=
  acts.foldl applyAction nodes

/-- Number of per-node phase patches in a trace (the number of node
upgrades started, when the trace comes from the schedulers). -/
def numPhasePatches (acts : List Action) : Nat :=
  acts.countP (fun a => match a with
    | .patchNodePhase _ _ => true
    | _ => false)

/-- `process_control_plane_nodes` (direct_update.py lines 284-324) as
the trace of effects of one call.  `backupEnabled` models
`backup.is_backup_enabled()` and `backupFails` whether
`backup.trigger_etcd_backup` raises.  The loop starts the first
`Pending` node (backup first when enabled; on backup failure it patches
RequiresAttention and returns), waits on the first in-flight node, and
skips `Completed`/`Failed` nodes. -/
def process_control_plane_nodes (backupEnabled backupFails : Bool)
    (cps : List String) (nodes : NodesMap) : List Action :=
  match cps with
  | [] => []
  | n :: rest =>
    match getPhase nodes n with
    | .Pending =>
        if backupEnabled then
          if backupFails then
            [.triggerBackup n, .patchOpPhase .RequiresAttention]
          else
            [.triggerBackup n, .patchBackupInfo n,
             .annotate n, .patchNodePhase n .Upgrading]
        else
          [.annotate n, .patchNodePhase n .Upgrading]
    | .Draining => []
    | .Upgrading => []
    | .Verifying => []
    | .Uncordoning => []
    | _ => process_control_plane_nodes backupEnabled backupFails rest nodes

/-- The loop of `process_worker_nodes` (direct_update.py lines
338-353): `count` is the running `upgrading_count`; node phases are
read from the tick's snapshot (the code never updates its local
`nodes_status` while looping). -/
def worker_loop (concurrency : Int) (ws : List String) (nodes : NodesMap)
    (count : Nat) : List Action :=
  match ws with
  | [] => []
  | n :: rest =>
    if concurrency ≤ (count : Int) then []
    else
      match getPhase nodes n with
      | .Pending =>
          .annotate n :: .patchNodePhase n .Upgrading ::
            worker_loop concurrency rest nodes (count + 1)
      | _ => worker_loop concurrency rest nodes count

/-- `process_worker_nodes` (direct_update.py lines 327-353): seed the
running count with the number of currently in-flight workers, then
walk the plan order starting `Pending` workers while the count is
strictly below `spec.concurrency` (read unclamped from the spec). -/
def process_worker_nodes (concurrency : Int) (ws : List String)
    (nodes : NodesMap) : List Action :=
  worker_loop concurrency ws nodes (inflightCount ws nodes)

/-- `handle_in_progress_phase` (direct_update.py lines 243-281):
control-plane stage until every control-plane node is in
`{Completed, Failed}`, then the worker stage; then `update_summary`;
then the Succeeded patch exactly when every planned node is
`Completed`. -/
def handle_in_progress_phase (backupEnabled backupFails : Bool)
    (concurrency : Int) (cps ws : List String) (nodes : NodesMap) :
    List Action :=
  let sched :=
    if cps.all (fun n => optTerminal (lookupPhase nodes n)) then
      process_worker_nodes concurrency ws nodes
    else
      process_control_plane_nodes backupEnabled backupFails cps nodes
  sched ++
    (if (cps ++ ws).all (fun n => optCompleted (lookupPhase nodes n)) then
      [Action.patchSummary, Action.patchOpPhase .Succeeded]
    else [Action.patchSummary])

/-- Static data of one reconcile loop: the backup configuration, the
spec's concurrency, and the plan (control-plane and worker lists). -/
structure TickCfg where
  backupEnabled : Bool
  backupFails : Bool
  concurrency : Int
  cps : List String
  ws : List String

/-- One transition of the InProgress system: either a reconcile tick of
the controller applied to the status nodes map, or the agent advancing
one node it owns (a node is handed to the agent only once it is
in-flight, and the agent moves it between in-flight phases or to
`Completed`/`Failed`). -/
inductive Step (cfg : TickCfg) : NodesMap → NodesMap → Prop where
  | tick (nodes : NodesMap) :
      Step cfg nodes
        (applyActions nodes
          (handle_in_progress_phase cfg.backupEnabled cfg.backupFails
            cfg.concurrency cfg.cps cfg.ws nodes))
  | agent (nodes : NodesMap) (n : String) (p q : NodePhase) :
      lookupPhase nodes n = some p →
      isInFlight p = true →
      (isInFlight q = true ∨ isTerminalNode q = true) →
      Step cfg nodes (setPhase nodes n q)

/-- The `status.nodes` seed written by `create_direct_update`
(direct_update.py lines 124-134): every planned node starts
`Pending`. -/
def initNodes (cfg : TickCfg) : NodesMap :=
  (cfg.cps ++ cfg.ws).map (fun n => (n, NodePhase.Pending))

/-- Status snapshots reachable while the operation is InProgress. -/
def ReachableNodes (cfg : TickCfg) (nodes : NodesMap) : Prop :=
  Relation.ReflTransGen (Step cfg) (initNodes cfg) nodes

/-- A node that has not been started: no entry yet or still
`Pending`. -/
def pendingLike (o : Option NodePhase) : Bool :=
  !optInFlight o && !optTerminal o

def allPendingLike (nodes : NodesMap) (l : List String) : Prop :=
  ∀ n ∈ l, pendingLike (lookupPhase nodes n) = true

/-- Shape of the control-plane list maintained by the scheduler: a
prefix of terminal nodes, then at most one started (in-flight) node,
with every later node still pending. -/
def cpShape (nodes : NodesMap) : List String → Prop
  | [] => True
  | n :: rest =>
      (optTerminal (lookupPhase nodes n) = true ∧ cpShape nodes rest)
    ∨ (pendingLike (lookupPhase nodes n) = true ∧ allPendingLike nodes rest)
    ∨ (optInFlight (lookupPhase nodes n) = true ∧ allPendingLike nodes rest)

/-- Count of in-flight control-plane nodes. -/
def cpInflightCount (cps : List String) (nodes : NodesMap) : Nat :=
  cps.countP (fun n => optInFlight (lookupPhase nodes n))

/-! ## Creation (direct_update.py `create_direct_update`) -/

/-- The errors `create_direct_update` raises; every one is a
`kopf.PermanentError`, so the framework does not retry the handler. -/
inductive CreateErr where
  | missingTarget
  | invalidTarget
  | notNewer
  | planningFailed
deriving DecidableEq, Repr

/-- The status patches `create_direct_update` writes, in order:
the initial Pending status (direct_update.py lines 94-115, with
`upgradePath` present only for multi-step paths), the plan status with
the seeded nodes (lines 137-149), or the Failed status when planning
raises (lines 153-157). -/
inductive CreatePatch where
  | initialStatus (phase : OpPhase) (hasUpgradePath : Bool)
  | planStatus (total : Nat)
  | failedStatus
deriving DecidableEq, Repr

/-- Inputs of one `create_direct_update` call: the parsed
`spec.targetVersion` (`none` when the field is missing), the cluster
version from the VersionApi (`none` when unobtainable), and the
planner's result (`none` when `planner.make_plan` raises). -/
structure CreateInput where
  targetVersion : Option Version
  currentVersion : Option Version
  planResult : Option (List String × List String)

/-- The tail of `create_direct_update` after validation: write the
initial status, then the plan status (or the Failed status plus a
permanent planning error). -/
def create_after_validation (hasUpgradePath : Bool)
    (planResult : Option (List String × List String)) :
    List CreatePatch × Option CreateErr :=
  match planResult with
  | some (cps, ws) =>
      ([.initialStatus .Pending hasUpgradePath,
        .planStatus (cps.length + ws.length)], none)
  | none =>
      ([.initialStatus .Pending hasUpgradePath, .failedStatus],
       some .planningFailed)

/-- `create_direct_update` (direct_update.py lines 20-160): missing or
invalid target ⇒ permanent error before any write; current version
known with an empty upgrade path ⇒ permanent "not newer" error before
any write; otherwise the initial and plan statuses are written. -/
def create_direct_update (inp : CreateInput) :
    List CreatePatch × Option CreateErr :=
  match inp.targetVersion with
  | none => ([], some .missingTarget)
  | some t =>
      if validate_version t then
        match inp.currentVersion with
        | some cur =>
            if calculate_upgrade_path cur t = [] then ([], some .notNewer)
            else
              create_after_validation
                (decide (1 < (calculate_upgrade_path cur t).length))
                inp.planResult
        | none => create_after_validation false inp.planResult
      else ([], some .invalidTarget)

/-! ## Deletion and backup cleanup (direct_update.py
`delete_direct_update`, backup.py `cleanup_backup_configmaps`) -/

/-- The metadata of a ConfigMap relevant to the backup label selector
`cupcake.ricardomolendijk.com/operation-id=<id>,
cupcake.ricardomolendijk.com/backup=true`. -/
structure ConfigMapMeta where
  name : String
  operationId : String
  isBackup : Bool
deriving DecidableEq, Repr

/-- `cleanup_backup_configmaps` (backup.py lines 120-141): the names of
the ConfigMaps it attempts to delete — every ConfigMap in the namespace
matching the operation-id and backup labels; individual deletion
failures are logged and skipped, never failing the cleanup. -/
def cleanup_backup_configmaps (operationId : String)
    (cms : List ConfigMapMeta) : List String :=
  (cms.filter (fun cm => cm.operationId == operationId && cm.isBackup)).map
    (fun cm => cm.name)

/-- `delete_direct_update` (direct_update.py lines 416-421): the handler
only logs and returns a message; it makes no API call, so its ConfigMap
deletion trace is empty whatever the cluster holds. -/
def delete_direct_update (name : String) : List String × String :=
  ([], "DirectUpdate " ++ name ++ " cleanup complete")

/-! ## Status deep merge (state.py `deep_merge`,
direct_update.py `update_node_status`) -/

/-- A JSON-like status value: a mapping, or a scalar leaf.  Arrays and
other scalars behave exactly like `str` under `deep_merge` (replaced
wholesale), so a string leaf suffices to model them. -/
inductive JVal where
  | str (s : String)
  | obj (fields : List (String × JVal))

def lookupJ (fields : List (String × JVal)) (k : String) : Option JVal :=
  match fields with
  | [] => none
  | (k₀, v₀) :: rest => if k₀ = k then some v₀ else lookupJ rest k

def setJ (fields : List (String × JVal)) (k : String) (v : JVal) :
    List (String × JVal) :=
  match fields with
  | [] => [(k, v)]
  | (k₀, v₀) :: rest =>
      if k₀ = k then (k, v) :: rest else (k₀, v₀) :: setJ rest k v

/-- `deep_merge` (state.py lines 47-60): walk the keys of `updates`; at
a key where both sides hold mappings, merge recursively; otherwise the
incoming value replaces the existing one. -/
def deep_merge : List (String × JVal) → List (String × JVal) →
    List (String × JVal)
  | base, [] => base
  | base, (k, JVal.str s) :: rest => deep_merge (setJ base k (JVal.str s)) rest
  | base, (k, JVal.obj uo) :: rest =>
      match lookupJ base k with
      | some (JVal.obj bo) =>
          deep_merge (setJ base k (JVal.obj (deep_merge bo uo))) rest
      | some (JVal.str s₀) => deep_merge (setJ base k (JVal.obj uo)) rest
      | none => deep_merge (setJ base k (JVal.obj uo)) rest
termination_by b l => sizeOf l
decreasing_by all_goals (simp_wf; try omega)

/-- The status patch built by `update_node_status` (direct_update.py
lines 383-396): one node's `{phase, message, lastUpdated}` under
`nodes`, plus the top-level `lastUpdated`. -/
def update_node_status_patch (node : String) (phase msg ts : String) :
    List (String × JVal) :=
  [("nodes", JVal.obj [(node, JVal.obj
      [("phase", JVal.str phase), ("message", JVal.str msg),
       ("lastUpdated", JVal.str ts)])]),
   ("lastUpdated", JVal.str ts)]

lemma intRange_length (a b : Int) : (intRange a b).length = (b - a).toNat := by
  simp [intRange]

lemma intRange_mem_lt {a b x : Int} (h : x ∈ intRange a b) : x < b := by
  simp only [intRange, List.mem_map, List.mem_range] at h
  obtain ⟨i, hi, rfl⟩ := h
  omega

lemma intRange_empty (a b : Int) (h : b ≤ a) : intRange a b = [] := by
  simp [intRange, show (b - a).toNat = 0 by omega]

lemma intRange_succ (a b : Int) (h : a ≤ b) :
    intRange a (b + 1) = intRange a b ++ [b] := by
  unfold intRange
  have h1 : (b + 1 - a).toNat = (b - a).toNat + 1 := by omega
  rw [h1, List.range_succ, List.map_append]
  simp only [List.map_cons, List.map_nil, List.append_cancel_left_eq,
    List.cons.injEq, and_true]
  omega

lemma lookupPhase_setPhase (nodes : NodesMap) (n m : String) (p : NodePhase) :
    lookupPhase (setPhase nodes n p) m =
      if m = n then some p else lookupPhase nodes m := by
  induction nodes with
  | nil =>
      by_cases h : m = n
      · simp [setPhase, lookupPhase, h]
      · simp [setPhase, lookupPhase, h, Ne.symm h]
  | cons e rest ih =>
      obtain ⟨k, q⟩ := e
      by_cases hk : k = n
      · subst hk
        by_cases hm : m = k
        · simp [setPhase, lookupPhase, hm]
        · simp [setPhase, lookupPhase, hm, Ne.symm hm]
      · simp only [setPhase, if_neg hk]
        by_cases hm : k = m
        · subst hm
          simp [lookupPhase, hk]
        · simp [lookupPhase, hm, ih]

lemma applyActions_append (nodes : NodesMap) (l₁ l₂ : List Action) :
    applyActions nodes (l₁ ++ l₂) = applyActions (applyActions nodes l₁) l₂ := by
  simp [applyActions, List.foldl_append]

lemma countP_ext {α : Type} (l : List α) (f g : α → Bool)
    (h : ∀ x ∈ l, f x = g x) : l.countP f = l.countP g := by
  induction l with
  | nil => rfl
  | cons x rest ih =>
      simp only [List.countP_cons, h x (List.mem_cons_self x rest),
        ih (fun y hy => h y (List.mem_cons_of_mem x hy))]

lemma inflightCount_setPhase_not_mem (ws : List String) (nodes : NodesMap)
    (n : String) (p : NodePhase) (h : n ∉ ws) :
    inflightCount ws (setPhase nodes n p) = inflightCount ws nodes := by
  unfold inflightCount
  apply countP_ext
  intro m hm
  rw [lookupPhase_setPhase, if_neg]
  intro hmn
  exact h (hmn ▸ hm)

lemma inflightCount_setPhase_le (ws : List String) (nodes : NodesMap)
    (n : String) (p : NodePhase) (hnd : ws.Nodup) :
    inflightCount ws (setPhase nodes n p) ≤ inflightCount ws nodes + 1 := by
  induction ws with
  | nil => simp [inflightCount]
  | cons m rest ih =>
      have hnd' : rest.Nodup := (List.nodup_cons.mp hnd).2
      have hm : m ∉ rest := (List.nodup_cons.mp hnd).1
      simp only [inflightCount, List.countP_cons] at ih ⊢
      by_cases hmn : m = n
      · subst hmn
        have htail : rest.countP (fun x => optInFlight (lookupPhase (setPhase nodes m p) x)) =
            rest.countP (fun x => optInFlight (lookupPhase nodes x)) := by
          apply countP_ext
          intro x hx
          rw [lookupPhase_setPhase, if_neg (fun hxm : x = m => hm (hxm ▸ hx))]
        rw [htail]
        by_cases hf : optInFlight (lookupPhase (setPhase nodes m p) m) = true <;>
          by_cases hg : optInFlight (lookupPhase nodes m) = true <;>
          simp [hf, hg] <;> omega
      · have hhead : optInFlight (lookupPhase (setPhase nodes n p) m) =
            optInFlight (lookupPhase nodes m) := by
          rw [lookupPhase_setPhase, if_neg hmn]
        rw [hhead]
        have := ih hnd'
        omega

lemma inflightCount_setPhase_of_inflight (ws : List String) (nodes : NodesMap)
    (n : String) (p : NodePhase) (hnd : ws.Nodup)
    (hin : optInFlight (lookupPhase nodes n) = true) :
    inflightCount ws (setPhase nodes n p) ≤ inflightCount ws nodes := by
  induction ws with
  | nil => simp [inflightCount]
  | cons m rest ih =>
      have hnd' : rest.Nodup := (List.nodup_cons.mp hnd).2
      have hm : m ∉ rest := (List.nodup_cons.mp hnd).1
      simp only [inflightCount, List.countP_cons] at ih ⊢
      by_cases hmn : m = n
      · subst hmn
        have htail : rest.countP (fun x => optInFlight (lookupPhase (setPhase nodes m p) x)) =
            rest.countP (fun x => optInFlight (lookupPhase nodes x)) := by
          apply countP_ext
          intro x hx
          rw [lookupPhase_setPhase, if_neg (fun hxm : x = m => hm (hxm ▸ hx))]
        rw [htail]
        by_cases hf : optInFlight (lookupPhase (setPhase nodes m p) m) = true <;>
          simp [hf, hin] <;> omega
      · have hhead : optInFlight (lookupPhase (setPhase nodes n p) m) =
            optInFlight (lookupPhase nodes m) := by
          rw [lookupPhase_setPhase, if_neg hmn]
        rw [hhead]
        have := ih hnd'
        omega

lemma pendingLike_none : pendingLike none = true := rfl

lemma pendingLike_some (p : NodePhase) :
    pendingLike (some p) = true ↔ p = .Pending := by
  cases p <;> simp [pendingLike, optInFlight, optTerminal, isInFlight, isTerminalNode]

lemma getPhase_pending_iff (nodes : NodesMap) (n : String) :
    getPhase nodes n = .Pending ↔ pendingLike (lookupPhase nodes n) = true := by
  unfold getPhase
  cases h : lookupPhase nodes n with
  | none => simp [pendingLike_none]
  | some p => simp [pendingLike_some]

lemma optInFlight_getPhase (nodes : NodesMap) (n : String)
    (h : isInFlight (getPhase nodes n) = true) (hne : getPhase nodes n ≠ .Pending) :
    optInFlight (lookupPhase nodes n) = true := by
  unfold getPhase at h hne
  cases hl : lookupPhase nodes n with
  | none => rw [hl] at hne; simp at hne
  | some p => rw [hl] at h; simpa [optInFlight] using h

lemma lookupPhase_applyActions (nodes : NodesMap) (acts : List Action) (m : String)
    (h : ∀ n p, Action.patchNodePhase n p ∈ acts → n ≠ m) :
    lookupPhase (applyActions nodes acts) m = lookupPhase nodes m := by
  induction acts generalizing nodes with
  | nil => rfl
  | cons a rest ih =>
      have hstep : applyActions nodes (a :: rest) =
          applyActions (applyAction nodes a) rest := rfl
      rw [hstep]
      cases a with
      | patchNodePhase n p =>
          have hn : n ≠ m := h n p (List.mem_cons_self _ _)
          rw [ih (applyAction nodes (.patchNodePhase n p))
            (fun n₀ p₀ hmem => h n₀ p₀ (List.mem_cons_of_mem _ hmem))]
          simp only [applyAction]
          rw [lookupPhase_setPhase, if_neg (fun hmn : m = n => hn hmn.symm)]
      | triggerBackup n =>
          exact ih nodes (fun n₀ p₀ hmem => h n₀ p₀ (List.mem_cons_of_mem _ hmem))
      | patchBackupInfo n =>
          exact ih nodes (fun n₀ p₀ hmem => h n₀ p₀ (List.mem_cons_of_mem _ hmem))
      | patchOpPhase p =>
          exact ih nodes (fun n₀ p₀ hmem => h n₀ p₀ (List.mem_cons_of_mem _ hmem))
      | annotate n =>
          exact ih nodes (fun n₀ p₀ hmem => h n₀ p₀ (List.mem_cons_of_mem _ hmem))
      | patchSummary =>
          exact ih nodes (fun n₀ p₀ hmem => h n₀ p₀ (List.mem_cons_of_mem _ hmem))

/-- Every call of the control-plane scheduler produces either the empty
trace, or exactly one of the three start traces for the first `Pending`
node. -/
lemma process_cp_characterization (be bf : Bool) (cps : List String)
    (nodes : NodesMap) :
    process_control_plane_nodes be bf cps nodes = [] ∨
    (∃ n, n ∈ cps ∧ getPhase nodes n = .Pending ∧
      ((be = true ∧ bf = true ∧
        process_control_plane_nodes be bf cps nodes =
          [.triggerBackup n, .patchOpPhase .RequiresAttention]) ∨
       (be = true ∧ bf = false ∧
        process_control_plane_nodes be bf cps nodes =
          [.triggerBackup n, .patchBackupInfo n, .annotate n,
           .patchNodePhase n .Upgrading]) ∨
       (be = false ∧
        process_control_plane_nodes be bf cps nodes =
          [.annotate n, .patchNodePhase n .Upgrading]))) := by
  induction cps with
  | nil => exact Or.inl rfl
  | cons n rest ih =>
      cases hp : getPhase nodes n with
      | Pending =>
          right
          refine ⟨n, List.mem_cons_self n rest, hp, ?_⟩
          cases be with
          | true =>
              cases bf with
              | true =>
                  exact Or.inl ⟨rfl, rfl, by simp [process_control_plane_nodes, hp]⟩
              | false =>
                  exact Or.inr (Or.inl ⟨rfl, rfl,
                    by simp [process_control_plane_nodes, hp]⟩)
          | false =>
              exact Or.inr (Or.inr ⟨rfl,
                by simp [process_control_plane_nodes, hp]⟩)
      | Draining => exact Or.inl (by simp [process_control_plane_nodes, hp])
      | Upgrading => exact Or.inl (by simp [process_control_plane_nodes, hp])
      | Verifying => exact Or.inl (by simp [process_control_plane_nodes, hp])
      | Uncordoning => exact Or.inl (by simp [process_control_plane_nodes, hp])
      | Completed =>
          have hrec : process_control_plane_nodes be bf (n :: rest) nodes =
              process_control_plane_nodes be bf rest nodes := by
            simp [process_control_plane_nodes, hp]
          rw [hrec]
          rcases ih with h | ⟨n₀, hmem, hp₀, hcase⟩
          · exact Or.inl h
          · exact Or.inr ⟨n₀, List.mem_cons_of_mem n hmem, hp₀, hcase⟩
      | Failed =>
          have hrec : process_control_plane_nodes be bf (n :: rest) nodes =
              process_control_plane_nodes be bf rest nodes := by
            simp [process_control_plane_nodes, hp]
          rw [hrec]
          rcases ih with h | ⟨n₀, hmem, hp₀, hcase⟩
          · exact Or.inl h
          · exact Or.inr ⟨n₀, List.mem_cons_of_mem n hmem, hp₀, hcase⟩

lemma optTerminal_not_inflight {o : Option NodePhase}
    (h : optTerminal o = true) : optInFlight o = false := by
  cases o with
  | none => rfl
  | some p => cases p <;> simp_all [optTerminal, optInFlight, isTerminalNode, isInFlight]

lemma pendingLike_not_inflight {o : Option NodePhase}
    (h : pendingLike o = true) : optInFlight o = false := by
  unfold pendingLike at h
  simp only [Bool.and_eq_true, Bool.not_eq_true'] at h
  exact h.1

lemma pendingLike_not_terminal {o : Option NodePhase}
    (h : pendingLike o = true) : optTerminal o = false := by
  unfold pendingLike at h
  simp only [Bool.and_eq_true, Bool.not_eq_true'] at h
  exact h.2

lemma process_cp_apply (be bf : Bool) (cps : List String) (nodes : NodesMap) :
    applyActions nodes (process_control_plane_nodes be bf cps nodes) = nodes ∨
    (∃ n, n ∈ cps ∧ getPhase nodes n = .Pending ∧
      applyActions nodes (process_control_plane_nodes be bf cps nodes) =
        setPhase nodes n .Upgrading) := by
  rcases process_cp_characterization be bf cps nodes with h | ⟨n, hmem, hp, hcase⟩
  · left
    rw [h]
    rfl
  · rcases hcase with ⟨_, _, htr⟩ | ⟨_, _, htr⟩ | ⟨_, htr⟩
    · left
      rw [htr]
      rfl
    · right
      exact ⟨n, hmem, hp, by rw [htr]; rfl⟩
    · right
      exact ⟨n, hmem, hp, by rw [htr]; rfl⟩

lemma process_cp_patch_nodes (be bf : Bool) (cps : List String) (nodes : NodesMap)
    (n : String) (p : NodePhase)
    (h : Action.patchNodePhase n p ∈ process_control_plane_nodes be bf cps nodes) :
    getPhase nodes n = .Pending := by
  rcases process_cp_characterization be bf cps nodes with he | ⟨n₀, _, hp₀, hcase⟩
  · rw [he] at h
    simp at h
  · rcases hcase with ⟨_, _, htr⟩ | ⟨_, _, htr⟩ | ⟨_, htr⟩ <;>
      rw [htr] at h <;> simp at h <;> exact h.1 ▸ hp₀

lemma process_cp_numPatches (be bf : Bool) (cps : List String) (nodes : NodesMap) :
    numPhasePatches (process_control_plane_nodes be bf cps nodes) ≤ 1 := by
  rcases process_cp_characterization be bf cps nodes with h | ⟨n, _, _, hcase⟩
  · rw [h]
    exact Nat.zero_le 1
  · rcases hcase with ⟨_, _, htr⟩ | ⟨_, _, htr⟩ | ⟨_, htr⟩ <;>
      rw [htr] <;> simp [numPhasePatches]

lemma worker_loop_mem (c : Int) (ws : List String) (nodes : NodesMap) (k : Nat) :
    ∀ a ∈ worker_loop c ws nodes k,
      ∃ n, getPhase nodes n = .Pending ∧
        (a = .annotate n ∨ a = .patchNodePhase n .Upgrading) := by
  induction ws generalizing k with
  | nil =>
      intro a ha
      simp [worker_loop] at ha
  | cons n rest ih =>
      intro a ha
      by_cases hc : c ≤ (k : Int)
      · simp [worker_loop, hc] at ha
      · cases hp : getPhase nodes n with
        | Pending =>
            simp only [worker_loop, if_neg hc, hp, List.mem_cons] at ha
            rcases ha with rfl | rfl | ha
            · exact ⟨n, hp, Or.inl rfl⟩
            · exact ⟨n, hp, Or.inr rfl⟩
            · exact ih (k + 1) a ha
        | Draining =>
            simp only [worker_loop, if_neg hc, hp] at ha
            exact ih k a ha
        | Upgrading =>
            simp only [worker_loop, if_neg hc, hp] at ha
            exact ih k a ha
        | Verifying =>
            simp only [worker_loop, if_neg hc, hp] at ha
            exact ih k a ha
        | Uncordoning =>
            simp only [worker_loop, if_neg hc, hp] at ha
            exact ih k a ha
        | Completed =>
            simp only [worker_loop, if_neg hc, hp] at ha
            exact ih k a ha
        | Failed =>
            simp only [worker_loop, if_neg hc, hp] at ha
            exact ih k a ha

lemma worker_loop_cons (c : Int) (n : String) (rest : List String)
    (nodes : NodesMap) (k : Nat) :
    worker_loop c (n :: rest) nodes k =
      if c ≤ (k : Int) then []
      else match getPhase nodes n with
        | .Pending =>
            .annotate n :: .patchNodePhase n .Upgrading ::
              worker_loop c rest nodes (k + 1)
        | _ => worker_loop c rest nodes k := rfl

lemma numPhasePatches_cons_patch (n : String) (p : NodePhase)
    (acts : List Action) :
    numPhasePatches (Action.patchNodePhase n p :: acts) =
      numPhasePatches acts + 1 := by
  simp [numPhasePatches, List.countP_cons]

lemma numPhasePatches_cons_annotate (n : String) (acts : List Action) :
    numPhasePatches (Action.annotate n :: acts) = numPhasePatches acts := by
  simp [numPhasePatches, List.countP_cons]

lemma worker_loop_numPatches (c : Int) (ws : List String) (nodes : NodesMap)
    (k : Nat) :
    (k : Int) + numPhasePatches (worker_loop c ws nodes k) ≤ max (k : Int) c := by
  induction ws generalizing k with
  | nil =>
      simp [worker_loop, numPhasePatches]
  | cons n rest ih =>
      by_cases hc : c ≤ (k : Int)
      · rw [worker_loop_cons, if_pos hc]
        simp only [numPhasePatches, List.countP_nil]
        omega
      · rw [worker_loop_cons, if_neg hc]
        cases hp : getPhase nodes n with
        | Pending =>
            have hrec := ih (k + 1)
            rw [numPhasePatches_cons_annotate, numPhasePatches_cons_patch]
            omega
        | Draining => exact le_trans (ih k) (by omega)
        | Upgrading => exact le_trans (ih k) (by omega)
        | Verifying => exact le_trans (ih k) (by omega)
        | Uncordoning => exact le_trans (ih k) (by omega)
        | Completed => exact le_trans (ih k) (by omega)
        | Failed => exact le_trans (ih k) (by omega)

lemma applyActions_numPatches (ws : List String) (acts : List Action)
    (nodes : NodesMap) (hnd : ws.Nodup) :
    inflightCount ws (applyActions nodes acts) ≤
      inflightCount ws nodes + numPhasePatches acts := by
  induction acts generalizing nodes with
  | nil => simp [applyActions, numPhasePatches]
  | cons a rest ih =>
      have hstep : applyActions nodes (a :: rest) =
          applyActions (applyAction nodes a) rest := rfl
      rw [hstep]
      cases a with
      | patchNodePhase n p =>
          have h1 := ih (applyAction nodes (.patchNodePhase n p))
          have h2 : inflightCount ws (applyAction nodes (.patchNodePhase n p)) ≤
              inflightCount ws nodes + 1 := by
            simpa [applyAction] using
              inflightCount_setPhase_le ws nodes n p hnd
          have h3 : numPhasePatches (Action.patchNodePhase n p :: rest) =
              numPhasePatches rest + 1 := by
            simp [numPhasePatches, List.countP_cons]
          omega
      | triggerBackup n =>
          have h1 := ih nodes
          have h3 : numPhasePatches (Action.triggerBackup n :: rest) =
              numPhasePatches rest := by
            simp [numPhasePatches, List.countP_cons]
          simpa [applyAction, h3] using h1
      | patchBackupInfo n =>
          have h1 := ih nodes
          have h3 : numPhasePatches (Action.patchBackupInfo n :: rest) =
              numPhasePatches rest := by
            simp [numPhasePatches, List.countP_cons]
          simpa [applyAction, h3] using h1
      | patchOpPhase p =>
          have h1 := ih nodes
          have h3 : numPhasePatches (Action.patchOpPhase p :: rest) =
              numPhasePatches rest := by
            simp [numPhasePatches, List.countP_cons]
          simpa [applyAction, h3] using h1
      | annotate n =>
          have h1 := ih nodes
          have h3 : numPhasePatches (Action.annotate n :: rest) =
              numPhasePatches rest := by
            simp [numPhasePatches, List.countP_cons]
          simpa [applyAction, h3] using h1
      | patchSummary =>
          have h1 := ih nodes
          have h3 : numPhasePatches (Action.patchSummary :: rest) =
              numPhasePatches rest := by
            simp [numPhasePatches, List.countP_cons]
          simpa [applyAction, h3] using h1

lemma process_workers_bound (c : Int) (ws : List String) (nodes : NodesMap)
    (hnd : ws.Nodup) (h : (inflightCount ws nodes : Int) ≤ c) :
    (inflightCount ws (applyActions nodes (process_worker_nodes c ws nodes)) : Int)
      ≤ c := by
  have h1 := applyActions_numPatches ws (process_worker_nodes c ws nodes) nodes hnd
  have h2 := worker_loop_numPatches c ws nodes (inflightCount ws nodes)
  rw [max_eq_right h] at h2
  simp only [process_worker_nodes] at h1 ⊢
  omega

lemma process_workers_saturated (c : Int) (ws : List String) (nodes : NodesMap)
    (h : c ≤ (inflightCount ws nodes : Int)) :
    process_worker_nodes c ws nodes = [] := by
  cases ws with
  | nil => rfl
  | cons n rest =>
      simp [process_worker_nodes, worker_loop, h]

lemma optTerminal_cases {nodes : NodesMap} {n : String}
    (h : optTerminal (lookupPhase nodes n) = true) :
    getPhase nodes n = .Completed ∨ getPhase nodes n = .Failed := by
  unfold getPhase
  cases hl : lookupPhase nodes n with
  | none => rw [hl] at h; simp [optTerminal] at h
  | some p =>
      rw [hl] at h
      cases p <;> simp_all [optTerminal, isTerminalNode]

lemma process_cp_cons_terminal (be bf : Bool) (n : String) (rest : List String)
    (nodes : NodesMap)
    (h : getPhase nodes n = .Completed ∨ getPhase nodes n = .Failed) :
    process_control_plane_nodes be bf (n :: rest) nodes =
      process_control_plane_nodes be bf rest nodes := by
  rcases h with h | h <;> simp [process_control_plane_nodes, h]

lemma process_cp_cons_inflight (be bf : Bool) (n : String) (rest : List String)
    (nodes : NodesMap) (h : optInFlight (lookupPhase nodes n) = true) :
    process_control_plane_nodes be bf (n :: rest) nodes = [] := by
  cases hl : lookupPhase nodes n with
  | none => rw [hl] at h; simp [optInFlight] at h
  | some p =>
      have hg : getPhase nodes n = p := by unfold getPhase; rw [hl]; rfl
      rw [hl] at h
      cases p <;> simp_all [optInFlight, isInFlight] <;>
        simp [process_control_plane_nodes, hg]

lemma process_cp_cons_pending (be bf : Bool) (n : String) (rest : List String)
    (nodes : NodesMap) (h : getPhase nodes n = .Pending) :
    process_control_plane_nodes be bf (n :: rest) nodes =
      (if be then
        (if bf then [.triggerBackup n, .patchOpPhase .RequiresAttention]
         else [.triggerBackup n, .patchBackupInfo n,
               .annotate n, .patchNodePhase n .Upgrading])
       else [.annotate n, .patchNodePhase n .Upgrading]) := by
  simp [process_control_plane_nodes, h]

lemma cpShape_of_allTerminal {nodes : NodesMap} :
    ∀ {l : List String}, (∀ n ∈ l, optTerminal (lookupPhase nodes n) = true) →
      cpShape nodes l := by
  intro l
  induction l with
  | nil => intro _; trivial
  | cons n rest ih =>
      intro h
      simp only [cpShape]
      exact Or.inl ⟨h n (List.mem_cons_self n rest),
        ih (fun m hm => h m (List.mem_cons_of_mem n hm))⟩

lemma cpShape_of_allPendingLike {nodes : NodesMap} :
    ∀ {l : List String}, allPendingLike nodes l → cpShape nodes l := by
  intro l
  induction l with
  | nil => intro _; trivial
  | cons n rest ih =>
      intro h
      simp only [cpShape]
      exact Or.inr (Or.inl ⟨h n (List.mem_cons_self n rest),
        fun m hm => h m (List.mem_cons_of_mem n hm)⟩)

lemma cpInflightCount_allPendingLike {nodes : NodesMap} {l : List String}
    (h : allPendingLike nodes l) : cpInflightCount l nodes = 0 := by
  unfold cpInflightCount
  rw [List.countP_eq_zero]
  intro n hn
  simp [pendingLike_not_inflight (h n hn)]

lemma cpShape_inflight_le_one {nodes : NodesMap} :
    ∀ {l : List String}, cpShape nodes l → cpInflightCount l nodes ≤ 1 := by
  intro l
  induction l with
  | nil => intro _; simp [cpInflightCount]
  | cons n rest ih =>
      intro hs
      simp only [cpShape] at hs
      simp only [cpInflightCount, List.countP_cons] at ih ⊢
      rcases hs with ⟨hterm, hrest⟩ | ⟨hpend, hall⟩ | ⟨hinf, hall⟩
      · have h1 := optTerminal_not_inflight hterm
        have h2 := ih hrest
        simp [h1]
        omega
      · have h1 := pendingLike_not_inflight hpend
        have h2 := cpInflightCount_allPendingLike hall
        simp only [cpInflightCount] at h2
        simp [h1, h2]
      · have h2 := cpInflightCount_allPendingLike hall
        simp only [cpInflightCount] at h2
        simp [hinf, h2]

lemma cpShape_agent (nodes : NodesMap) (n : String) (q : NodePhase)
    (hin : optInFlight (lookupPhase nodes n) = true)
    (hq : isInFlight q = true ∨ isTerminalNode q = true) :
    ∀ (cps : List String), cps.Nodup → cpShape nodes cps →
      cpShape (setPhase nodes n q) cps := by
  intro cps
  induction cps with
  | nil => intro _ _; trivial
  | cons m rest ih =>
      intro hnd hs
      have hnd' := (List.nodup_cons.mp hnd).2
      simp only [cpShape] at hs ⊢
      rcases hs with ⟨hterm, hrest⟩ | ⟨hpend, hall⟩ | ⟨hinf, hall⟩
      · have hmn : m ≠ n := by
          intro he
          have hmf := optTerminal_not_inflight (he ▸ hterm)
          simp [hmf] at hin
        left
        refine ⟨?_, ih hnd' hrest⟩
        rw [lookupPhase_setPhase, if_neg hmn]
        exact hterm
      · have hmn : m ≠ n := by
          intro he
          have hmf := pendingLike_not_inflight (he ▸ hpend)
          simp [hmf] at hin
        right
        left
        refine ⟨?_, ?_⟩
        · rw [lookupPhase_setPhase, if_neg hmn]
          exact hpend
        · intro x hx
          have hxn : x ≠ n := by
            intro he
            have hxf := pendingLike_not_inflight (he ▸ hall x hx)
            simp [hxf] at hin
          rw [lookupPhase_setPhase, if_neg hxn]
          exact hall x hx
      · have hallnew : allPendingLike (setPhase nodes n q) rest := by
          intro x hx
          have hxn : x ≠ n := by
            intro he
            have hxf := pendingLike_not_inflight (he ▸ hall x hx)
            simp [hxf] at hin
          rw [lookupPhase_setPhase, if_neg hxn]
          exact hall x hx
        by_cases hmn : m = n
        · subst hmn
          have hlook : lookupPhase (setPhase nodes m q) m = some q := by
            rw [lookupPhase_setPhase, if_pos rfl]
          rcases hq with hqi | hqt
          · right
            right
            refine ⟨?_, hallnew⟩
            rw [hlook]
            simpa [optInFlight] using hqi
          · left
            refine ⟨?_, cpShape_of_allPendingLike hallnew⟩
            rw [hlook]
            simpa [optTerminal] using hqt
        · right
          right
          refine ⟨?_, hallnew⟩
          rw [lookupPhase_setPhase, if_neg hmn]
          exact hinf

lemma cpShape_cp_tick (be bf : Bool) (cps : List String) (nodes : NodesMap)
    (hnd : cps.Nodup) (hs : cpShape nodes cps) :
    cpShape (applyActions nodes (process_control_plane_nodes be bf cps nodes))
      cps := by
  induction cps with
  | nil => trivial
  | cons m rest ih =>
      have hnd' := (List.nodup_cons.mp hnd).2
      have hm_not : m ∉ rest := (List.nodup_cons.mp hnd).1
      simp only [cpShape] at hs ⊢
      rcases hs with ⟨hterm, hrest⟩ | ⟨hpend, hall⟩ | ⟨hinf, hall⟩
      · rw [process_cp_cons_terminal be bf m rest nodes (optTerminal_cases hterm)]
        have hpatched : ∀ n p,
            Action.patchNodePhase n p ∈
              process_control_plane_nodes be bf rest nodes → n ≠ m := by
          intro n p hmem he
          have hpnd := process_cp_patch_nodes be bf rest nodes n p hmem
          rw [he] at hpnd
          rcases optTerminal_cases hterm with hc | hc <;> simp [hpnd] at hc
        left
        refine ⟨?_, ih hnd' hrest⟩
        rw [lookupPhase_applyActions nodes _ m hpatched]
        exact hterm
      · have hp : getPhase nodes m = .Pending := (getPhase_pending_iff nodes m).mpr hpend
        rw [process_cp_cons_pending be bf m rest nodes hp]
        have hrest_new : ∀ (x : String), x ∈ rest →
            pendingLike (lookupPhase (setPhase nodes m .Upgrading) x) = true := by
          intro x hx
          have hxm : x ≠ m := fun he => hm_not (he ▸ hx)
          rw [lookupPhase_setPhase, if_neg hxm]
          exact hall x hx
        cases be with
        | false =>
            have happ : applyActions nodes
                [Action.annotate m, Action.patchNodePhase m .Upgrading] =
                setPhase nodes m .Upgrading := rfl
            rw [if_neg (by simp)]
            rw [happ]
            right
            right
            refine ⟨?_, hrest_new⟩
            rw [lookupPhase_setPhase, if_pos rfl]
            rfl
        | true =>
            cases bf with
            | true =>
                have happ : applyActions nodes
                    [Action.triggerBackup m,
                     Action.patchOpPhase .RequiresAttention] = nodes := rfl
                rw [if_pos rfl, if_pos rfl, happ]
                right
                left
                exact ⟨hpend, hall⟩
            | false =>
                have happ : applyActions nodes
                    [Action.triggerBackup m, Action.patchBackupInfo m,
                     Action.annotate m, Action.patchNodePhase m .Upgrading] =
                    setPhase nodes m .Upgrading := rfl
                rw [if_pos rfl, if_neg (by simp), happ]
                right
                right
                refine ⟨?_, hrest_new⟩
                rw [lookupPhase_setPhase, if_pos rfl]
                rfl
      · rw [process_cp_cons_inflight be bf m rest nodes hinf]
        have happ : applyActions nodes [] = nodes := rfl
        rw [happ]
        right
        right
        exact ⟨hinf, hall⟩

lemma cpShape_worker_tick (c : Int) (ws : List String) (cps : List String)
    (nodes : NodesMap)
    (hall : ∀ n ∈ cps, optTerminal (lookupPhase nodes n) = true) :
    cpShape (applyActions nodes (process_worker_nodes c ws nodes)) cps := by
  apply cpShape_of_allTerminal
  intro n hn
  have hpatched : ∀ n₀ p,
      Action.patchNodePhase n₀ p ∈ process_worker_nodes c ws nodes →
        n₀ ≠ n := by
    intro n₀ p hmem he
    rcases worker_loop_mem c ws nodes (inflightCount ws nodes) _ hmem with
      ⟨n₁, hp₁, hcase⟩
    rcases hcase with h | h
    · exact Action.noConfusion h
    · have hn₁ : n₀ = n₁ := by
        injection h with h1 h2
      have hp : getPhase nodes n = .Pending := by
        rw [← he, hn₁]
        exact hp₁
      have hterm := hall n hn
      simp [pendingLike_not_terminal ((getPhase_pending_iff nodes n).mp hp)]
        at hterm
  rw [lookupPhase_applyActions nodes _ n hpatched]
  exact hall n hn

lemma applyActions_post (x : NodesMap) (b : Prop) [Decidable b] :
    applyActions x
      (if b then [Action.patchSummary, Action.patchOpPhase .Succeeded]
       else [Action.patchSummary]) = x := by
  by_cases hb : b
  · rw [if_pos hb]
    rfl
  · rw [if_neg hb]
    rfl

lemma handle_apply (be bf : Bool) (c : Int) (cps ws : List String)
    (nodes : NodesMap) :
    applyActions nodes (handle_in_progress_phase be bf c cps ws nodes) =
      if cps.all (fun n => optTerminal (lookupPhase nodes n)) then
        applyActions nodes (process_worker_nodes c ws nodes)
      else
        applyActions nodes (process_control_plane_nodes be bf cps nodes) := by
  simp only [handle_in_progress_phase]
  rw [applyActions_append, applyActions_post, apply_ite (applyActions nodes)]

lemma cpShape_tick (be bf : Bool) (c : Int) (cps ws : List String)
    (nodes : NodesMap) (hnd : cps.Nodup) (hs : cpShape nodes cps) :
    cpShape (applyActions nodes (handle_in_progress_phase be bf c cps ws nodes))
      cps := by
  rw [handle_apply]
  by_cases hall : cps.all (fun n => optTerminal (lookupPhase nodes n)) = true
  · rw [if_pos hall]
    exact cpShape_worker_tick c ws cps nodes (List.all_eq_true.mp hall)
  · rw [if_neg hall]
    exact cpShape_cp_tick be bf cps nodes hnd hs

end Cupcake

namespace Cupcake

lemma lookupPhase_allPending (l : List String) (n : String) :
    lookupPhase (l.map (fun m => (m, NodePhase.Pending))) n =
      if n ∈ l then some NodePhase.Pending else none := by
  induction l with
  | nil => simp [lookupPhase]
  | cons m rest ih =>
      simp only [List.map_cons, lookupPhase]
      by_cases h : m = n
      · subst h
        simp
      · simp [h, Ne.symm h, ih, List.mem_cons]

lemma initNodes_pendingLike (cfg : TickCfg) (n : String) :
    pendingLike (lookupPhase (initNodes cfg) n) = true := by
  unfold initNodes
  rw [lookupPhase_allPending]
  by_cases h : n ∈ cfg.cps ++ cfg.ws
  · rw [if_pos h]
    rw [pendingLike_some]
  · rw [if_neg h]
    exact pendingLike_none

lemma cpShape_init (cfg : TickCfg) : cpShape (initNodes cfg) cfg.cps :=
  cpShape_of_allPendingLike (fun n _ => initNodes_pendingLike cfg n)

lemma inflight_init (cfg : TickCfg) : inflightCount cfg.ws (initNodes cfg) = 0 := by
  unfold inflightCount
  rw [List.countP_eq_zero]
  intro n _
  simp [pendingLike_not_inflight (initNodes_pendingLike cfg n)]

lemma cpShape_reachable (cfg : TickCfg) (hnd : cfg.cps.Nodup) {s : NodesMap}
    (h : ReachableNodes cfg s) : cpShape s cfg.cps := by
  unfold ReachableNodes at h
  induction h with
  | refl => exact cpShape_init cfg
  | tail hsteps hstep ih =>
      cases hstep with
      | tick =>
          exact cpShape_tick cfg.backupEnabled cfg.backupFails cfg.concurrency
            cfg.cps cfg.ws _ hnd ih
      | agent n p q hl hp hq =>
          exact cpShape_agent _ n q
            (by rw [hl]; simpa [optInFlight] using hp) hq cfg.cps hnd ih

lemma inflight_reachable (cfg : TickCfg) (hnd : cfg.ws.Nodup)
    (hdisj : ∀ n ∈ cfg.cps, n ∉ cfg.ws) (hc : 0 ≤ cfg.concurrency)
    {s : NodesMap} (h : ReachableNodes cfg s) :
    (inflightCount cfg.ws s : Int) ≤ cfg.concurrency := by
  unfold ReachableNodes at h
  induction h with
  | refl =>
      rw [inflight_init]
      exact_mod_cast hc
  | tail hsteps hstep ih =>
      rename_i mid _
      cases hstep with
      | tick =>
          rw [handle_apply]
          by_cases hall :
              cfg.cps.all (fun n => optTerminal (lookupPhase mid n)) = true
          · rw [if_pos hall]
            exact process_workers_bound cfg.concurrency cfg.ws mid hnd ih
          · rw [if_neg hall]
            rcases process_cp_apply cfg.backupEnabled cfg.backupFails
                cfg.cps mid with he | ⟨n, hmem, hp, he⟩
            · rw [he]
              exact ih
            · rw [he, inflightCount_setPhase_not_mem cfg.ws mid n _
                (hdisj n hmem)]
              exact ih
      | agent n p q hl hp hq =>
          have hin : optInFlight (lookupPhase mid n) = true := by
            rw [hl]
            simpa [optInFlight] using hp
          have hle := inflightCount_setPhase_of_inflight cfg.ws mid n q hnd hin
          have hle2 : (inflightCount cfg.ws (setPhase mid n q) : Int) ≤
              (inflightCount cfg.ws mid : Int) := by exact_mod_cast hle
          exact le_trans hle2 ih

lemma process_cp_no_succeeded (be bf : Bool) (cps : List String)
    (nodes : NodesMap) :
    Action.patchOpPhase .Succeeded ∉
      process_control_plane_nodes be bf cps nodes := by
  intro hmem
  rcases process_cp_characterization be bf cps nodes with he | ⟨n, _, _, hcase⟩
  · rw [he] at hmem
    simp at hmem
  · rcases hcase with ⟨_, _, htr⟩ | ⟨_, _, htr⟩ | ⟨_, htr⟩ <;>
      rw [htr] at hmem <;> simp at hmem

lemma process_workers_no_succeeded (c : Int) (ws : List String)
    (nodes : NodesMap) :
    Action.patchOpPhase .Succeeded ∉ process_worker_nodes c ws nodes := by
  intro hmem
  rcases worker_loop_mem c ws nodes (inflightCount ws nodes) _ hmem with
    ⟨n, _, h | h⟩ <;> exact Action.noConfusion h

/-- Claim C5: for every nodes map, the summary computed by
`compute_summary` / `update_summary` satisfies
`completed + upgrading + pending + failed = total = |nodes|`: the four
phase classes `Completed`, `{Draining, Upgrading, Verifying,
Uncordoning}`, `Pending`, `Failed` partition the `NodePhase` domain. -/
theorem compute_summary_partition (nodes : List (String × NodePhase)) :
    (compute_summary nodes).completed + (compute_summary nodes).upgrading +
      (compute_summary nodes).pending + (compute_summary nodes).failed =
      (compute_summary nodes).total ∧
    (compute_summary nodes).total = nodes.length := by
  have hpt : ∀ p : NodePhase,
      ((if isCompletedP p = true then 1 else 0) : Nat) +
        (if isInFlight p = true then 1 else 0) +
        (if isPendingP p = true then 1 else 0) +
        (if isFailedP p = true then 1 else 0) = 1 := by
    intro p
    cases p <;> rfl
  have key : ∀ l : List (String × NodePhase),
      l.countP (fun e => isCompletedP e.2) + l.countP (fun e => isInFlight e.2) +
        l.countP (fun e => isPendingP e.2) + l.countP (fun e => isFailedP e.2) =
        l.length := by
    intro l
    induction l with
    | nil => simp
    | cons e rest ih =>
        simp only [List.countP_cons, List.length_cons]
        have := hpt e.2
        omega
  cases nodes with
  | nil => simp [compute_summary]
  | cons e rest =>
      refine ⟨?_, ?_⟩
      · simpa [compute_summary] using key (e :: rest)
      · simp [compute_summary]

/-- Claim C4 (counterexample): at `current = 1.5.0`, `target = 2.3.0`
we have `current < target` with differing minors, yet
`calculate_upgrade_path` returns the empty path, so its length is not
`max(1, target.minor − current.minor)` as claimed. -/
theorem upgrade_path_cross_major_refutes_claim :
    vlt ⟨1, 5, 0⟩ ⟨2, 3, 0⟩ = true ∧
    (Version.mk 1 5 0).minor ≠ (Version.mk 2 3 0).minor ∧
    calculate_upgrade_path ⟨1, 5, 0⟩ ⟨2, 3, 0⟩ = [] ∧
    ((calculate_upgrade_path ⟨1, 5, 0⟩ ⟨2, 3, 0⟩).length : Int) ≠
      max 1 ((Version.mk 2 3 0).minor - (Version.mk 1 5 0).minor) := by
  decide

/-- Claim C4 (amended): `calculate_upgrade_path` agrees with the
claimed description on every pair with `current.minor < target.minor`
(or `current ≥ target`, or equal minors), and returns the empty path in
the remaining cross-major case `current < target` with
`target.minor < current.minor`; the path length is 0 when
`current ≥ target`, 1 when minors are equal, and
`(target.minor − current.minor)⁺` otherwise. -/
theorem calculate_upgrade_path_spec (current target : Version) :
    calculate_upgrade_path current target = claim_path current target ∧
    (calculate_upgrade_path current target).length =
      (if ¬ vlt current target then 0
       else if current.minor = target.minor then 1
       else (target.minor - current.minor).toNat) := by
  have main : calculate_upgrade_path current target = claim_path current target := by
    by_cases hv : vlt current target = true
    · have hge : vge current target = false := by simp [vge, hv]
      by_cases hm : current.minor = target.minor
      · simp [calculate_upgrade_path, claim_path, hge, hv, hm]
      · by_cases hlt : current.minor < target.minor
        · by_cases h1 : target.minor - current.minor = 1
          · have ht : target.minor = current.minor + 1 := by omega
            simp [calculate_upgrade_path, claim_path, hge, hv, hm, hlt, h1,
              intRange_empty (current.minor + 1) target.minor (by omega)]
          · have hle : current.minor + 1 ≤ target.minor := by omega
            have hsplit := intRange_succ (current.minor + 1) target.minor hle
            simp only [calculate_upgrade_path, claim_path, hge, hv, hm, hlt, h1,
              Bool.false_eq_true, if_false, if_true, not_true_eq_false,
              if_neg (by omega : ¬ current.minor = target.minor)]
            rw [hsplit, List.map_append]
            congr 1
            · apply List.map_congr_left
              intro x hx
              have hxlt := intRange_mem_lt hx
              simp [show ¬ x = target.minor by omega]
            · simp
        · have hgt : target.minor < current.minor := by omega
          simp [calculate_upgrade_path, claim_path, hge, hv, hm, hlt,
            show ¬ target.minor - current.minor = 1 by omega,
            intRange_empty (current.minor + 1) (target.minor + 1) (by omega)]
    · have hge : vge current target = true := by
        simp only [vge, Bool.not_eq_true']
        exact Bool.not_eq_true _ ▸ (by simpa using hv)
      simp [calculate_upgrade_path, claim_path, hge, hv]
  refine ⟨main, ?_⟩
  rw [main]
  by_cases hv : vlt current target = true
  · by_cases hm : current.minor = target.minor
    · simp [claim_path, hv, hm]
    · by_cases hlt : current.minor < target.minor
      · simp [claim_path, hv, hm, hlt, intRange_length]
        omega
      · simp [claim_path, hv, hm, hlt]
        omega
  · simp [claim_path, hv]

end Cupcake


namespace Cupcake

/-- Claim C1: with backup enabled, any control-plane node the tick
annotates appears in the exact trace
`[trigger, backupInfo, annotate, patch Upgrading]`, so `Backup.trigger`
strictly precedes `NodeDispatcher.annotate` for that node; and when
backup ConfigMap creation fails, the tick patches
phase=RequiresAttention, annotates no node, patches no node phase, and
leaves every node's status entry unchanged. -/
theorem backup_gates_control_plane (bf : Bool) (cps : List String)
    (nodes : NodesMap) :
    (∀ n, Action.annotate n ∈ process_control_plane_nodes true bf cps nodes →
      process_control_plane_nodes true bf cps nodes =
        [.triggerBackup n, .patchBackupInfo n, .annotate n,
         .patchNodePhase n .Upgrading]) ∧
    (bf = true →
      (∀ n, Action.annotate n ∉ process_control_plane_nodes true bf cps nodes) ∧
      (∀ n p, Action.patchNodePhase n p ∉
        process_control_plane_nodes true bf cps nodes) ∧
      applyActions nodes (process_control_plane_nodes true bf cps nodes) =
        nodes ∧
      (∀ n, Action.triggerBackup n ∈
          process_control_plane_nodes true bf cps nodes →
        Action.patchOpPhase .RequiresAttention ∈
          process_control_plane_nodes true bf cps nodes)) := by
  rcases process_cp_characterization true bf cps nodes with
    he | ⟨n₀, hmem, hp, hcase⟩
  · refine ⟨?_, ?_⟩
    · intro n hn
      rw [he] at hn
      simp at hn
    · intro _
      refine ⟨?_, ?_, ?_, ?_⟩
      · intro n hn
        rw [he] at hn
        simp at hn
      · intro n p hn
        rw [he] at hn
        simp at hn
      · rw [he]
        rfl
      · intro n hn
        rw [he] at hn
        simp at hn
  · rcases hcase with ⟨_, hbf, htr⟩ | ⟨_, hbf, htr⟩ | ⟨hbe, _⟩
    · refine ⟨?_, ?_⟩
      · intro n hn
        rw [htr] at hn
        simp at hn
      · intro _
        refine ⟨?_, ?_, ?_, ?_⟩
        · intro n hn
          rw [htr] at hn
          simp at hn
        · intro n p hn
          rw [htr] at hn
          simp at hn
        · rw [htr]
          rfl
        · intro n _
          rw [htr]
          simp
    · refine ⟨?_, ?_⟩
      · intro n hn
        rw [htr] at hn
        simp at hn
        rw [htr, hn]
      · intro hbf'
        rw [hbf'] at hbf
        exact absurd hbf (by simp)
    · exact absurd hbe (by simp)

/-- Claim C1 witness: with backup enabled and ConfigMap creation
failing on the first tick of a one-node control plane, no node is
annotated, the nodes map is unchanged, and RequiresAttention is
patched. -/
theorem backup_gates_control_plane_witness :
    (Action.annotate "cp1" ∉ process_control_plane_nodes true true ["cp1"] []) ∧
    applyActions [] (process_control_plane_nodes true true ["cp1"] []) = [] ∧
    (Action.patchOpPhase .RequiresAttention ∈
      process_control_plane_nodes true true ["cp1"] []) := by
  have h := (backup_gates_control_plane true ["cp1"] []).2 rfl
  exact ⟨h.1 "cp1", h.2.2.1,
    h.2.2.2 "cp1" (by simp [process_control_plane_nodes, getPhase, lookupPhase])⟩

/-- Claim C2: over every snapshot reachable from the initial all-Pending
status (by reconcile ticks and agent progress), the number of in-flight
workers never exceeds `spec.concurrency`, and once the count reaches
`spec.concurrency` the worker scheduler starts nothing (its trace is
empty). -/
theorem worker_concurrency_bound (cfg : TickCfg) (hnd : cfg.ws.Nodup)
    (hdisj : ∀ n ∈ cfg.cps, n ∉ cfg.ws) (hc : 0 ≤ cfg.concurrency)
    (nodes : NodesMap) (hreach : ReachableNodes cfg nodes) :
    (inflightCount cfg.ws nodes : Int) ≤ cfg.concurrency ∧
    (cfg.concurrency ≤ (inflightCount cfg.ws nodes : Int) →
      process_worker_nodes cfg.concurrency cfg.ws nodes = []) :=
  ⟨inflight_reachable cfg hnd hdisj hc hreach,
   fun hsat => process_workers_saturated _ _ _ hsat⟩

/-- Claim C2 witness at a concrete configuration and its initial
state. -/
theorem worker_concurrency_bound_witness :
    (inflightCount ["w1", "w2", "w3"]
        (initNodes ⟨false, false, 2, ["cp1"], ["w1", "w2", "w3"]⟩) : Int) ≤ 2 ∧
    ((2 : Int) ≤ (inflightCount ["w1", "w2", "w3"]
        (initNodes ⟨false, false, 2, ["cp1"], ["w1", "w2", "w3"]⟩) : Int) →
      process_worker_nodes 2 ["w1", "w2", "w3"]
        (initNodes ⟨false, false, 2, ["cp1"], ["w1", "w2", "w3"]⟩) = []) :=
  worker_concurrency_bound ⟨false, false, 2, ["cp1"], ["w1", "w2", "w3"]⟩
    (by decide) (by decide) (by decide) _ Relation.ReflTransGen.refl

/-- Claim C3: in every snapshot reachable from the initial all-Pending
status, at most one control-plane node is in a non-terminal in-flight
phase, and any single control-plane tick patches at most one node's
phase (starts at most one node). -/
theorem control_plane_serialized (cfg : TickCfg) (hnd : cfg.cps.Nodup)
    (nodes : NodesMap) (hreach : ReachableNodes cfg nodes) :
    cpInflightCount cfg.cps nodes ≤ 1 ∧
    numPhasePatches (process_control_plane_nodes cfg.backupEnabled
      cfg.backupFails cfg.cps nodes) ≤ 1 :=
  ⟨cpShape_inflight_le_one (cpShape_reachable cfg hnd hreach),
   process_cp_numPatches _ _ _ _⟩

/-- Claim C3 witness at a concrete configuration and its initial
state. -/
theorem control_plane_serialized_witness :
    cpInflightCount ["cp1", "cp2"]
        (initNodes ⟨false, false, 1, ["cp1", "cp2"], ["w1"]⟩) ≤ 1 ∧
    numPhasePatches (process_control_plane_nodes false false ["cp1", "cp2"]
        (initNodes ⟨false, false, 1, ["cp1", "cp2"], ["w1"]⟩)) ≤ 1 :=
  control_plane_serialized ⟨false, false, 1, ["cp1", "cp2"], ["w1"]⟩
    (by decide) _ Relation.ReflTransGen.refl

/-- Claim C6: an InProgress tick emits the phase=Succeeded patch exactly
when every planned node's status entry is `Completed`; in particular a
plan with zero nodes is patched Succeeded on the first tick. -/
theorem succeeded_iff_all_completed (be bf : Bool) (c : Int)
    (cps ws : List String) (nodes : NodesMap) :
    (Action.patchOpPhase .Succeeded ∈
        handle_in_progress_phase be bf c cps ws nodes ↔
      ∀ n ∈ cps ++ ws, optCompleted (lookupPhase nodes n) = true) ∧
    (cps = [] → ws = [] →
      Action.patchOpPhase .Succeeded ∈
        handle_in_progress_phase be bf c cps ws nodes) := by
  have main : Action.patchOpPhase .Succeeded ∈
      handle_in_progress_phase be bf c cps ws nodes ↔
      ∀ n ∈ cps ++ ws, optCompleted (lookupPhase nodes n) = true := by
    constructor
    · intro hmem
      simp only [handle_in_progress_phase, List.mem_append] at hmem
      rcases hmem with hs | hpost
      · by_cases hall :
            cps.all (fun n => optTerminal (lookupPhase nodes n)) = true
        · rw [if_pos hall] at hs
          exact absurd hs (process_workers_no_succeeded c ws nodes)
        · rw [if_neg hall] at hs
          exact absurd hs (process_cp_no_succeeded be bf cps nodes)
      · by_cases hcomp :
            (cps ++ ws).all (fun n => optCompleted (lookupPhase nodes n)) = true
        · exact List.all_eq_true.mp hcomp
        · rw [if_neg hcomp] at hpost
          simp at hpost
    · intro hall
      have hcomp : (cps ++ ws).all
          (fun n => optCompleted (lookupPhase nodes n)) = true :=
        List.all_eq_true.mpr hall
      simp only [handle_in_progress_phase, List.mem_append]
      right
      rw [if_pos hcomp]
      simp
  refine ⟨main, ?_⟩
  intro hcps hws
  apply main.mpr
  intro n hn
  rw [hcps, hws] at hn
  simp at hn

/-- Claim C6 witness: the empty plan is patched Succeeded on the first
InProgress tick. -/
theorem succeeded_iff_all_completed_witness :
    Action.patchOpPhase .Succeeded ∈
      handle_in_progress_phase false false 1 [] [] [] :=
  (succeeded_iff_all_completed false false 1 [] [] []).2 rfl rfl

/-- Claim C10: with `spec.concurrency` equal to 0 (or any non-positive
value, read unclamped from the spec), the worker scheduler produces no
actions at all — no worker is annotated, no phase is patched, and the
nodes map is unchanged — so pending workers make no progress. -/
theorem zero_concurrency_stalls (c : Int) (ws : List String)
    (nodes : NodesMap) (hc : c ≤ 0) :
    process_worker_nodes c ws nodes = [] ∧
    applyActions nodes (process_worker_nodes c ws nodes) = nodes := by
  have h0 : c ≤ (inflightCount ws nodes : Int) :=
    le_trans hc (Int.natCast_nonneg _)
  have he := process_workers_saturated c ws nodes h0
  refine ⟨he, ?_⟩
  rw [he]
  rfl

/-- Claim C10 witness: concurrency 0 with one pending worker starts
nothing. -/
theorem zero_concurrency_stalls_witness :
    process_worker_nodes 0 ["w1"] [("w1", NodePhase.Pending)] = [] ∧
    applyActions [("w1", NodePhase.Pending)]
        (process_worker_nodes 0 ["w1"] [("w1", NodePhase.Pending)]) =
      [("w1", NodePhase.Pending)] :=
  zero_concurrency_stalls 0 ["w1"] [("w1", NodePhase.Pending)] (by decide)

end Cupcake

namespace Cupcake

lemma lookupJ_setJ (l : List (String × JVal)) (k k' : String) (v : JVal) :
    lookupJ (setJ l k v) k' = if k' = k then some v else lookupJ l k' := by
  induction l with
  | nil =>
      by_cases h : k' = k
      · simp [setJ, lookupJ, h]
      · simp [setJ, lookupJ, h, Ne.symm h]
  | cons e rest ih =>
      obtain ⟨k₀, v₀⟩ := e
      by_cases hk : k₀ = k
      · subst hk
        by_cases hm : k' = k₀
        · simp [setJ, lookupJ, hm]
        · simp [setJ, lookupJ, hm, Ne.symm hm]
      · simp only [setJ, if_neg hk]
        by_cases hm : k₀ = k'
        · subst hm
          simp [lookupJ, hk]
        · simp [lookupJ, hm, ih]

/-- Claim C7: when the current cluster version is known, the target
passes validation, and the computed upgrade path is empty (target not
newer than current), `create_direct_update` raises the permanent
"target not newer" error having written no status patch at all — in
particular nothing beyond Failed is ever written for the resource. -/
theorem create_not_newer_permanent (inp : CreateInput) (t cur : Version)
    (ht : inp.targetVersion = some t) (hv : validate_version t = true)
    (hcur : inp.currentVersion = some cur)
    (hpath : calculate_upgrade_path cur t = []) :
    create_direct_update inp = ([], some .notNewer) := by
  simp [create_direct_update, ht, hcur, hv, hpath]

/-- Claim C7 witness: the spec's downgrade scenario
`current = 1.28.0`, `target = 1.27.4`. -/
theorem create_not_newer_permanent_witness :
    create_direct_update
      { targetVersion := some ⟨1, 27, 4⟩, currentVersion := some ⟨1, 28, 0⟩,
        planResult := some ([], []) } = ([], some .notNewer) :=
  create_not_newer_permanent _ ⟨1, 27, 4⟩ ⟨1, 28, 0⟩ rfl (by decide) rfl
    (by decide)

/-- Claim C8 (code bug): the delete handler issues no ConfigMap
deletion at all, even when a backup ConfigMap carrying its operation-id
and backup labels exists, whereas `cleanup_backup_configmaps` — which
no handler ever calls — would delete exactly that ConfigMap. -/
theorem delete_performs_no_cleanup :
    (delete_direct_update "demo").1 = [] ∧
    cleanup_backup_configmaps "op1"
      [{ name := "backup-op1-node1", operationId := "op1",
         isBackup := true }] = ["backup-op1-node1"] :=
  ⟨rfl, rfl⟩

/-- Claim C9: a `update_node_status` patch deep-merged into any status
changes only the top-level `lastUpdated` and, inside `nodes`, only the
patched node's `{phase, message, lastUpdated}`: every other top-level
field, every other node's entry, and every other field of the patched
node (`startedAt`, `lastStep`, ...) are unchanged. -/
theorem update_node_status_frame (status ns entry : List (String × JVal))
    (node : String) (phase msg ts : String)
    (hns : lookupJ status "nodes" = some (JVal.obj ns))
    (hentry : lookupJ ns node = some (JVal.obj entry)) :
    (∀ k, k ≠ "nodes" → k ≠ "lastUpdated" →
      lookupJ (deep_merge status (update_node_status_patch node phase msg ts))
        k = lookupJ status k) ∧
    lookupJ (deep_merge status (update_node_status_patch node phase msg ts))
      "lastUpdated" = some (JVal.str ts) ∧
    (∃ entryNew : List (String × JVal),
      lookupJ (deep_merge status (update_node_status_patch node phase msg ts))
          "nodes" = some (JVal.obj (setJ ns node (JVal.obj entryNew))) ∧
      (∀ m, m ≠ node →
        lookupJ (setJ ns node (JVal.obj entryNew)) m = lookupJ ns m) ∧
      (∀ f, f ≠ "phase" → f ≠ "message" → f ≠ "lastUpdated" →
        lookupJ entryNew f = lookupJ entry f) ∧
      lookupJ entryNew "phase" = some (JVal.str phase) ∧
      lookupJ entryNew "message" = some (JVal.str msg) ∧
      lookupJ entryNew "lastUpdated" = some (JVal.str ts)) := by
  have hfull : deep_merge status (update_node_status_patch node phase msg ts) =
      setJ (setJ status "nodes"
        (JVal.obj (setJ ns node (JVal.obj
          (setJ (setJ (setJ entry "phase" (JVal.str phase)) "message"
            (JVal.str msg)) "lastUpdated" (JVal.str ts))))))
        "lastUpdated" (JVal.str ts) := by
    simp only [update_node_status_patch, deep_merge, hns, hentry]
  refine ⟨?_, ?_, ?_⟩
  · intro k hk1 hk2
    rw [hfull, lookupJ_setJ, if_neg hk2, lookupJ_setJ, if_neg hk1]
  · rw [hfull, lookupJ_setJ, if_pos rfl]
  · refine ⟨setJ (setJ (setJ entry "phase" (JVal.str phase)) "message"
      (JVal.str msg)) "lastUpdated" (JVal.str ts), ?_, ?_, ?_, ?_, ?_, ?_⟩
    · rw [hfull, lookupJ_setJ, if_neg (by decide), lookupJ_setJ, if_pos rfl]
    · intro m hm
      rw [lookupJ_setJ, if_neg hm]
    · intro f h1 h2 h3
      rw [lookupJ_setJ, if_neg h3, lookupJ_setJ, if_neg h2,
        lookupJ_setJ, if_neg h1]
    · rw [lookupJ_setJ, if_neg (by decide), lookupJ_setJ, if_neg (by decide),
        lookupJ_setJ, if_pos rfl]
    · rw [lookupJ_setJ, if_neg (by decide), lookupJ_setJ, if_pos rfl]
    · rw [lookupJ_setJ, if_pos rfl]

/-- Claim C9 witness: merging an Upgrading patch for `cp1` into a
concrete status leaves `operationID` unchanged and replaces the
top-level `lastUpdated`. -/
theorem update_node_status_frame_witness :
    lookupJ (deep_merge
        [("operationID", JVal.str "op1"),
         ("nodes", JVal.obj
           [("cp1", JVal.obj [("phase", JVal.str "Pending"),
                              ("startedAt", JVal.str "t0")])])]
        (update_node_status_patch "cp1" "Upgrading" "started" "t1"))
        "operationID" =
      lookupJ
        [("operationID", JVal.str "op1"),
         ("nodes", JVal.obj
           [("cp1", JVal.obj [("phase", JVal.str "Pending"),
                              ("startedAt", JVal.str "t0")])])]
        "operationID" ∧
    lookupJ (deep_merge
        [("operationID", JVal.str "op1"),
         ("nodes", JVal.obj
           [("cp1", JVal.obj [("phase", JVal.str "Pending"),
                              ("startedAt", JVal.str "t0")])])]
        (update_node_status_patch "cp1" "Upgrading" "started" "t1"))
        "lastUpdated" = some (JVal.str "t1") := by
  have h := update_node_status_frame
    [("operationID", JVal.str "op1"),
     ("nodes", JVal.obj
       [("cp1", JVal.obj [("phase", JVal.str "Pending"),
                          ("startedAt", JVal.str "t0")])])]
    [("cp1", JVal.obj [("phase", JVal.str "Pending"),
                       ("startedAt", JVal.str "t0")])]
    [("phase", JVal.str "Pending"), ("startedAt", JVal.str "t0")]
    "cp1" "Upgrading" "started" "t1" rfl rfl
  exact ⟨h.1 "operationID" (by decide) (by decide), h.2.1⟩

end Cupcake
